import Mathlib

/-!
# simpleSphericalTransform: the coordinate mapper and the span engine

A shallow embedding of `simpleSphericalTransform::doEngine`
(`src/simpleSphericalTransform.cpp`, lines 102-158).

* The per-column body (lines 123-148) is embedded over exact real arithmetic:
  every `float`/`double` value is a real number, `float(X)` is the cast of an
  integer, and no rounding takes place.  The local constant `PI` is a field of
  `Params`, so that the properties can be stated for `PI = Real.pi`
  (the source binds it to the literal `3.14159265359`).

  This idealisation is used for what it can carry: relations between the
  angles and the rotated vectors (longitude differences modulo `2 pi`,
  latitudes, unit length), which the program follows up to rounding.  It does
  not carry statements that hinge on a single rounding: the source stores `q`,
  `Xrot`, `Yrot`, `Zrot`, the rotated vector, `normRad` and `finalUV` in
  `float`s, so which side of the comparison `rotNorm[2] > 0`, of `2 pi`, or of
  an integer under `floor` a value falls on is decided by those roundings.
  In particular `rotNorm[2] = 0`, which the real-number `normRad` reaches for
  `PI = Real.pi`, is not a value the source computes, and the pixel `newPos`
  the program returns is not characterised here: no theorem of this file states
  which pixel `newPos` is.
* The span loop, the abort polls and the scatter of sampled pixels
  (lines 107-157) are embedded by explicit state passing.  The host calls
  `aborted()` and `Sampler::sample` are parameters, and the theorems about the
  loop hold for whatever position the loop body computes.
-/

namespace SimpleSphericalTransform

/-! ## Data model -/

/-- Two-component vector (`DD::Image::Vector2`), components `[0]`, `[1]`. -/
structure Vector2 where
  x : ℝ
  y : ℝ

/-- Three-component vector (`DD::Image::Vector3`), components `[0]`, `[1]`, `[2]`. -/
structure Vector3 where
  x : ℝ
  y : ℝ
  z : ℝ

/-- The values the per-column body reads besides the pixel: the local `PI`
(line 104), the knob `center[2]` (line 38), and `_width = info().r()`,
`_height = info().t()` (lines 105-106). -/
structure Params where
  PI : ℝ
  center0 : ℝ
  center1 : ℝ
  width : ℤ
  height : ℤ

/-- The literal the source assigns to `PI` on line 104. -/
def sourcePI : ℚ := 3.14159265359

/-- Modelled from the spec: `radians` is declared in `DDImage/DDMath.h`, which is
not part of the sources; the spec says the angle in degrees is "converted to
radians", that is, multiplied by pi / 180. -/
noncomputable def radians (degrees : ℝ) : ℝ := degrees * (Real.pi / 180)

/-- The two-argument arctangent of `<math.h>` on real numbers: the angle in
`(-pi, pi]` of the point `(x, y)`, and `0` at the origin. -/
noncomputable def atan2 (y x : ℝ) : ℝ := Complex.arg ⟨x, y⟩

/-- The arcsine of `<math.h>` on real numbers. -/
noncomputable def asin (v : ℝ) : ℝ := Real.arcsin v

/-! ## The coordinate mapper: the body of the column loop -/

/-- Line 123: `Vector2 p((float(X) + 0.5f) / float(_width), (float(y) + 0.5f) / float(_height))`. -/
noncomputable def p (c : Params) (X y : ℤ) : Vector2 :=
  ⟨((X : ℝ) + 0.5) / (c.width : ℝ), ((y : ℝ) + 0.5) / (c.height : ℝ)⟩

/-- Line 126: `Vector2 q((p.x) * (2*PI), (p.y) * (PI) - (PI/2))`. -/
noncomputable def q (c : Params) (X y : ℤ) : Vector2 :=
  ⟨(p c X y).x * (2 * c.PI), (p c X y).y * c.PI - c.PI / 2⟩

/-- Line 129: `cos(q[1]) * cos(q[0] + radians(-(center[0]/float(_width) * 360) + 90))`. -/
noncomputable def Xrot (c : Params) (X y : ℤ) : ℝ :=
  Real.cos (q c X y).y *
    Real.cos ((q c X y).x + radians (-(c.center0 / (c.width : ℝ) * 360) + 90))

/-- Line 130: `sin(q[1])`. -/
noncomputable def Yrot (c : Params) (X y : ℤ) : ℝ :=
  Real.sin (q c X y).y

/-- Line 131: `cos(q[1]) * sin(q[0] + radians(-(center[0]/float(_width) * 360) + 90))`. -/
noncomputable def Zrot (c : Params) (X y : ℤ) : ℝ :=
  Real.cos (q c X y).y *
    Real.sin ((q c X y).x + radians (-(c.center0 / (c.width : ℝ) * 360) + 90))

/-- Line 133: `float Xnorm = Xrot`. -/
noncomputable def Xnorm (c : Params) (X y : ℤ) : ℝ :=
  Xrot c X y

/-- Line 134: `Yrot*cos(radians(center[1]/float(_height) *180)) + Zrot*-sin(radians(center[1]/float(_height) *180))`. -/
noncomputable def Ynorm (c : Params) (X y : ℤ) : ℝ :=
  Yrot c X y * Real.cos (radians (c.center1 / (c.height : ℝ) * 180))
    + Zrot c X y * -Real.sin (radians (c.center1 / (c.height : ℝ) * 180))

/-- Line 135: `Yrot*sin(radians(center[1]/float(_height) *180)) + Zrot*cos(radians(center[1]/float(_height) *180))`. -/
noncomputable def Znorm (c : Params) (X y : ℤ) : ℝ :=
  Yrot c X y * Real.sin (radians (c.center1 / (c.height : ℝ) * 180))
    + Zrot c X y * Real.cos (radians (c.center1 / (c.height : ℝ) * 180))

/-- Line 137: `Vector3 rotNorm(Znorm, Ynorm, -Xnorm)`. -/
noncomputable def rotNorm (c : Params) (X y : ℤ) : Vector3 :=
  ⟨Znorm c X y, Ynorm c X y, -Xnorm c X y⟩

/-- Line 139: `Vector2 normRad(rotNorm[2] > 0 ? atan2(rotNorm[2],rotNorm[0])
: (2*PI) + atan2(rotNorm[2],rotNorm[0]), asin(rotNorm[1]))`.
The first component is the longitude, the second the latitude.  The source
stores both in `float`s and tests a `float` `rotNorm[2]`; here they are exact
reals, so this definition is used only for angle relations that do not depend
on the rounding of the comparison. -/
noncomputable def normRad (c : Params) (X y : ℤ) : Vector2 :=
  ⟨if (rotNorm c X y).z > 0 then atan2 (rotNorm c X y).z (rotNorm c X y).x
    else (2 * c.PI) + atan2 (rotNorm c X y).z (rotNorm c X y).x,
   asin (rotNorm c X y).y⟩

/-- Line 141: `Vector2 finalUV(normRad[0]/(2*PI), (normRad[1] + (PI/2))/PI)`. -/
noncomputable def finalUV (c : Params) (X y : ℤ) : Vector2 :=
  ⟨(normRad c X y).x / (2 * c.PI), ((normRad c X y).y + c.PI / 2) / c.PI⟩

/-- Line 143: `Vector2 newPos(floor(finalUV[0] * _width) + 0.5f, floor(finalUV[1] * _height) + 0.5f)`.
The source floors `float`-stored values; the floor of the exact reals taken
here can differ from it by one pixel, so `newPos` only stands for "the position
the loop body computes" in the theorems about the span engine. -/
noncomputable def newPos (c : Params) (X y : ℤ) : Vector2 :=
  ⟨((⌊(finalUV c X y).x * (c.width : ℝ)⌋ : ℤ) : ℝ) + 0.5,
   ((⌊(finalUV c X y).y * (c.height : ℝ)⌋ : ℤ) : ℝ) + 0.5⟩

/-- Line 145: `Vector2 du (1, -1)`. -/
def du : Vector2 := ⟨1, -1⟩

/-- Line 146: `Vector2 dv (-1, 1)`. -/
def dv : Vector2 := ⟨-1, 1⟩

/-- The record built by `samplePositions.emplace_back(newPos, du, dv, X)`
(line 148): target position, footprint, and the column `x` it came from. -/
structure SamplePosition where
  pos : Vector2
  du : Vector2
  dv : Vector2
  x : ℤ

/-- The sample position the loop body builds for column `X` of row `y`
(lines 123-148). -/
noncomputable def mapColumn (c : Params) (X y : ℤ) : SamplePosition :=
  ⟨newPos c X y, du, dv, X⟩

/-! ## The span engine: `doEngine` -/

/-- A channel of the host (`DD::Image::Channel`). -/
abbrev Channel := ℕ

/-- The output row (`DD::Image::Row`): for every channel whether its buffer
has been made writable, and the pixel value held at every column. -/
structure Row (V : Type) where
  writable : Channel → Bool
  data : Channel → ℤ → V

/-- Line 110, one step: `out.writable(z)`. -/
def Row.makeWritable {V : Type} (out : Row V) (z : Channel) : Row V :=
  ⟨fun z' => if z' = z then true else out.writable z', out.data⟩

/-- Line 155: `((float*)(out[z]))[samplePosition.x] = pixel[z]`. -/
def store {V : Type} (data : Channel → ℤ → V) (z : Channel) (X : ℤ) (v : V) :
    Channel → ℤ → V :=
  fun z' X' => if z' = z ∧ X' = X then v else data z' X'

/-- Lines 154-156: the loop over the channels that writes one sampled pixel
at column `X`. -/
def scatter {V : Type} (channels : List Channel) (pixel : Channel → V) (X : ℤ)
    (data : Channel → ℤ → V) : Channel → ℤ → V :=
  channels.foldl (fun d z => store d z X (pixel z)) data

/-- What a call of `doEngine` leaves behind: the output row, the vector
`samplePositions` as it stood when the call returned, and the arguments of the
calls of `sampler.sample`, in call order. -/
structure Outcome (V : Type) where
  out : Row V
  samplePositions : List SamplePosition
  sampled : List SamplePosition

/-- Lines 118-149: the column loop with `n` iterations left, at column `X`,
where `poll` counts the calls of `aborted()` made so far and `acc` is the
vector `samplePositions`.  The result is the vector and whether the loop ran to
its end (`false`: an abort poll returned `true`). -/
noncomputable def mapLoop (c : Params) (aborted : ℕ → Bool) (y : ℤ) :
    ℕ → ℤ → ℕ → List SamplePosition → List SamplePosition × Bool
  | 0, _, _, acc => (acc, true)
  | n + 1, X, poll, acc =>
    if aborted poll then (acc, false)
    else mapLoop c aborted y n (X + 1) (poll + 1) (acc ++ [mapColumn c X y])

/-- Lines 152-157: the loop over `samplePositions`, threading the pixel data and
the list of the sampler calls made so far. -/
def sampleLoop {V : Type} (sample : SamplePosition → Channel → V)
    (channels : List Channel) :
    List SamplePosition → (Channel → ℤ → V) × List SamplePosition →
      (Channel → ℤ → V) × List SamplePosition
  | [], st => st
  | sp :: rest, (data, calls) =>
    sampleLoop sample channels rest (scatter channels (sample sp) sp.x data, calls ++ [sp])

/-- Lines 102-158: `doEngine(y, x, r, channels, out)`.  `aborted k` is the
answer of the `k`-th call of `aborted()` (the call on line 107 is number 0, the
poll before the `j`-th column of the span is number `j + 1`), and `sample` is
`Sampler::sample` as a function of the sample position. -/
noncomputable def doEngine {V : Type} (c : Params) (aborted : ℕ → Bool)
    (sample : SamplePosition → Channel → V) (y x r : ℤ) (channels : List Channel)
    (out : Row V) : Outcome V :=
  if aborted 0 then ⟨out, [], []⟩
  else
    let out1 := channels.foldl Row.makeWritable out
    match mapLoop c aborted y (r - x).toNat x 1 [] with
    | (positions, false) => ⟨out1, positions, []⟩
    | (positions, true) =>
      let fin := sampleLoop sample channels positions (out1.data, [])
      ⟨⟨out1.writable, fin.1⟩, positions, fin.2⟩

/-- The columns `x, x + 1, ..., x + n - 1`. -/
def columns (x : ℤ) (n : ℕ) : List ℤ :=
  (List.range n).map (fun (k : ℕ) => x + (k : ℤ))

/-! ## Auxiliary facts about the primitives -/

theorem radians_yaw (c0 W : ℝ) :
    radians (-(c0 / W * 360) + 90) = Real.pi / 2 - c0 / W * (2 * Real.pi) := by
  unfold radians
  ring

theorem radians_pitch_zero (H : ℝ) : radians (0 / H * 180) = 0 := by
  simp [radians]

/-- On a point given in polar form with an angle of `(-pi, pi]`, `atan2`
returns the angle. -/
theorem atan2_polar {a θ : ℝ} (ha : 0 < a) (h1 : -Real.pi < θ) (h2 : θ ≤ Real.pi) :
    atan2 (a * Real.sin θ) (a * Real.cos θ) = θ := by
  unfold atan2
  have h := Complex.arg_mul_cos_add_sin_mul_I ha (Set.mem_Ioc.mpr ⟨h1, h2⟩)
  have e : (⟨a * Real.cos θ, a * Real.sin θ⟩ : ℂ)
      = (a : ℂ) * (Complex.cos θ + Complex.sin θ * Complex.I) := by
    apply Complex.ext
    · simp [← Complex.ofReal_cos, ← Complex.ofReal_sin]
    · simp [← Complex.ofReal_cos, ← Complex.ofReal_sin]
  rw [e]
  exact h

/-- The longitude expression of line 139 on a polar point with an angle
strictly between `0` and `pi`. -/
theorem seam_lt_pi {a θ : ℝ} (ha : 0 < a) (h0 : 0 < θ) (h1 : θ < Real.pi) :
    (if a * Real.sin θ > 0 then atan2 (a * Real.sin θ) (a * Real.cos θ)
      else (2 * Real.pi) + atan2 (a * Real.sin θ) (a * Real.cos θ)) = θ := by
  have hs : a * Real.sin θ > 0 := mul_pos ha (Real.sin_pos_of_pos_of_lt_pi h0 h1)
  rw [if_pos hs]
  exact atan2_polar ha (by linarith [Real.pi_pos]) h1.le

/-- The longitude expression of line 139 on a polar point with an angle
strictly between `pi` and `2 pi`. -/
theorem seam_gt_pi {a θ : ℝ} (ha : 0 < a) (h0 : Real.pi < θ) (h1 : θ < 2 * Real.pi) :
    (if a * Real.sin θ > 0 then atan2 (a * Real.sin θ) (a * Real.cos θ)
      else (2 * Real.pi) + atan2 (a * Real.sin θ) (a * Real.cos θ)) = θ := by
  have hsin : Real.sin θ = Real.sin (θ - 2 * Real.pi) := (Real.sin_sub_two_pi θ).symm
  have hcos : Real.cos θ = Real.cos (θ - 2 * Real.pi) := (Real.cos_sub_two_pi θ).symm
  have hneg : Real.sin (θ - 2 * Real.pi) < 0 :=
    Real.sin_neg_of_neg_of_neg_pi_lt (by linarith) (by linarith)
  have hs : ¬ (a * Real.sin θ > 0) := by
    rw [hsin]
    exact not_lt.mpr (mul_nonpos_of_nonneg_of_nonpos ha.le hneg.le)
  rw [if_neg hs, hsin, hcos, atan2_polar ha (by linarith) (by linarith)]
  ring

/-- The longitude expression of line 139 does not change when the angle of
the polar point moves by a whole number of turns. -/
theorem seam_periodic (a θ : ℝ) (k : ℤ) :
    (if a * Real.sin (θ + k * (2 * Real.pi)) > 0
      then atan2 (a * Real.sin (θ + k * (2 * Real.pi))) (a * Real.cos (θ + k * (2 * Real.pi)))
      else (2 * Real.pi) + atan2 (a * Real.sin (θ + k * (2 * Real.pi)))
        (a * Real.cos (θ + k * (2 * Real.pi))))
    = (if a * Real.sin θ > 0 then atan2 (a * Real.sin θ) (a * Real.cos θ)
      else (2 * Real.pi) + atan2 (a * Real.sin θ) (a * Real.cos θ)) := by
  rw [Real.sin_add_int_mul_two_pi, Real.cos_add_int_mul_two_pi]

/-- The longitude expression of line 139 on a polar point returns the angle
of the point up to a whole number of turns. -/
theorem seam_mod {a : ℝ} (ha : 0 < a) (θ : ℝ) :
    ∃ k : ℤ, (if a * Real.sin θ > 0 then atan2 (a * Real.sin θ) (a * Real.cos θ)
      else (2 * Real.pi) + atan2 (a * Real.sin θ) (a * Real.cos θ))
      = θ + k * (2 * Real.pi) := by
  have hp : (0 : ℝ) < 2 * Real.pi := by linarith [Real.pi_pos]
  obtain ⟨θ1, ⟨hlo, hhi⟩, k, hk⟩ : ∃ θ1 : ℝ, (-Real.pi < θ1 ∧ θ1 ≤ Real.pi) ∧
      ∃ k : ℤ, θ = θ1 + k * (2 * Real.pi) := by
    refine ⟨toIocMod hp (-Real.pi) θ, ?_, toIocDiv hp (-Real.pi) θ, ?_⟩
    · have h := toIocMod_mem_Ioc hp (-Real.pi) θ
      rw [Set.mem_Ioc] at h
      constructor
      · exact h.1
      · linarith [h.2]
    · have h := toIocMod_add_toIocDiv_zsmul hp (-Real.pi) θ
      rw [zsmul_eq_mul] at h
      linarith
  rw [hk, seam_periodic]
  have hat := atan2_polar ha hlo hhi
  by_cases hs : a * Real.sin θ1 > 0
  · rw [if_pos hs, hat]
    exact ⟨-k, by push_cast; ring⟩
  · rw [if_neg hs, hat]
    exact ⟨-k + 1, by push_cast; ring⟩

/-! ## The mapper without a vertical pole offset (`center[1] = 0`, `PI = pi`) -/

theorem q_x_eq (PI c0 c1 : ℝ) (W H X y : ℤ) :
    (q ⟨PI, c0, c1, W, H⟩ X y).x = ((X : ℝ) + 0.5) / (W : ℝ) * (2 * PI) := rfl

theorem q_y_eq (PI c0 c1 : ℝ) (W H X y : ℤ) :
    (q ⟨PI, c0, c1, W, H⟩ X y).y = ((y : ℝ) + 0.5) / (H : ℝ) * PI - PI / 2 := rfl

/-- For a row of the image the latitude `q[1]` lies strictly between the poles. -/
theorem q_y_bounds (c0 c1 : ℝ) (W H X y : ℤ) (hy0 : 0 ≤ y) (hy1 : y < H) :
    -(Real.pi / 2) < (q ⟨Real.pi, c0, c1, W, H⟩ X y).y ∧
      (q ⟨Real.pi, c0, c1, W, H⟩ X y).y < Real.pi / 2 := by
  rw [q_y_eq]
  have hH : (0 : ℝ) < (H : ℝ) := by exact_mod_cast lt_of_le_of_lt hy0 hy1
  have h0 : (0 : ℝ) ≤ (y : ℝ) := by exact_mod_cast hy0
  have h1 : (y : ℝ) + 1 ≤ (H : ℝ) := by exact_mod_cast Int.add_one_le_iff.mpr hy1
  have hpi := Real.pi_pos
  have ha : 0 < ((y : ℝ) + 0.5) / (H : ℝ) := div_pos (by linarith) hH
  have hb : ((y : ℝ) + 0.5) / (H : ℝ) < 1 := by
    rw [div_lt_one hH]
    linarith
  constructor
  · nlinarith
  · nlinarith

theorem cos_q_y_pos (c0 c1 : ℝ) (W H X y : ℤ) (hy0 : 0 ≤ y) (hy1 : y < H) :
    0 < Real.cos (q ⟨Real.pi, c0, c1, W, H⟩ X y).y := by
  have h := q_y_bounds c0 c1 W H X y hy0 hy1
  exact Real.cos_pos_of_mem_Ioo ⟨h.1, h.2⟩

/-- With `center[1] = 0` the rotated vector is the polar point of latitude
`q[1]` and longitude `q[0] - center[0] / width * 2 pi`. -/
theorem rotNorm_flat (c0 : ℝ) (W H X y : ℤ) :
    (rotNorm ⟨Real.pi, c0, 0, W, H⟩ X y).x
        = Real.cos (q ⟨Real.pi, c0, 0, W, H⟩ X y).y
          * Real.cos ((q ⟨Real.pi, c0, 0, W, H⟩ X y).x - c0 / (W : ℝ) * (2 * Real.pi)) ∧
    (rotNorm ⟨Real.pi, c0, 0, W, H⟩ X y).y = Real.sin (q ⟨Real.pi, c0, 0, W, H⟩ X y).y ∧
    (rotNorm ⟨Real.pi, c0, 0, W, H⟩ X y).z
        = Real.cos (q ⟨Real.pi, c0, 0, W, H⟩ X y).y
          * Real.sin ((q ⟨Real.pi, c0, 0, W, H⟩ X y).x - c0 / (W : ℝ) * (2 * Real.pi)) := by
  have e : ∀ t : ℝ, t + (Real.pi / 2 - c0 / (W : ℝ) * (2 * Real.pi))
      = (t - c0 / (W : ℝ) * (2 * Real.pi)) + Real.pi / 2 := fun t => by ring
  refine ⟨?_, ?_, ?_⟩
  · simp only [rotNorm, Znorm, Zrot, Yrot, radians_yaw, radians_pitch_zero, Real.sin_zero,
      Real.cos_zero, mul_zero, zero_add, mul_one, e, Real.sin_add_pi_div_two]
  · simp only [rotNorm, Ynorm, Zrot, Yrot, radians_pitch_zero, Real.sin_zero,
      Real.cos_zero, neg_zero, mul_zero, add_zero, mul_one]
  · simp only [rotNorm, Xnorm, Xrot, radians_yaw, e, Real.cos_add_pi_div_two]
    ring

/-- The longitude of line 139 when `center[1] = 0`, as the branch expression on a
polar point. -/
theorem longitude_flat (c0 : ℝ) (W H X y : ℤ) :
    (normRad ⟨Real.pi, c0, 0, W, H⟩ X y).x
      = (if Real.cos (q ⟨Real.pi, c0, 0, W, H⟩ X y).y
            * Real.sin ((q ⟨Real.pi, c0, 0, W, H⟩ X y).x - c0 / (W : ℝ) * (2 * Real.pi)) > 0
          then atan2 (Real.cos (q ⟨Real.pi, c0, 0, W, H⟩ X y).y
              * Real.sin ((q ⟨Real.pi, c0, 0, W, H⟩ X y).x - c0 / (W : ℝ) * (2 * Real.pi)))
            (Real.cos (q ⟨Real.pi, c0, 0, W, H⟩ X y).y
              * Real.cos ((q ⟨Real.pi, c0, 0, W, H⟩ X y).x - c0 / (W : ℝ) * (2 * Real.pi)))
          else (2 * Real.pi) + atan2 (Real.cos (q ⟨Real.pi, c0, 0, W, H⟩ X y).y
              * Real.sin ((q ⟨Real.pi, c0, 0, W, H⟩ X y).x - c0 / (W : ℝ) * (2 * Real.pi)))
            (Real.cos (q ⟨Real.pi, c0, 0, W, H⟩ X y).y
              * Real.cos ((q ⟨Real.pi, c0, 0, W, H⟩ X y).x - c0 / (W : ℝ) * (2 * Real.pi)))) := by
  obtain ⟨hx, -, hz⟩ := rotNorm_flat c0 W H X y
  simp only [normRad, hx, hz]

/-- With `center[1] = 0`, on a row of the image the longitude is the angle
`(X + 0.5 - center[0]) / width * 2 pi` up to a whole number of turns. -/
theorem longitude_flat_mod (c0 : ℝ) (W H X y : ℤ) (hy0 : 0 ≤ y) (hy1 : y < H) :
    ∃ k : ℤ, (normRad ⟨Real.pi, c0, 0, W, H⟩ X y).x
      = (((X : ℝ) + 0.5) / (W : ℝ) * (2 * Real.pi) - c0 / (W : ℝ) * (2 * Real.pi))
        + k * (2 * Real.pi) := by
  rw [longitude_flat, q_x_eq]
  exact seam_mod (cos_q_y_pos c0 0 W H X y hy0 hy1) _

/-- With `center[1] = 0`, on a row of the image: when `X - center[0]` is `m`
plus a whole number of widths, for a column `0 <= m < width` other than the
middle one of an odd width, the longitude is `(m + 0.5) / width * 2 pi`. -/
theorem longitude_flat_exact (c0 : ℝ) (W H X y m k : ℤ) (hy0 : 0 ≤ y) (hy1 : y < H)
    (hm0 : 0 ≤ m) (hm1 : m < W) (hmid : 2 * m + 1 ≠ W)
    (hk : (X : ℝ) - c0 = (m : ℝ) + (k : ℝ) * (W : ℝ)) :
    (normRad ⟨Real.pi, c0, 0, W, H⟩ X y).x = ((m : ℝ) + 0.5) / (W : ℝ) * (2 * Real.pi) := by
  have hW : (0 : ℝ) < (W : ℝ) := by exact_mod_cast lt_of_le_of_lt hm0 hm1
  have hW0 : (W : ℝ) ≠ 0 := ne_of_gt hW
  have hpi := Real.pi_pos
  have hm0r : (0 : ℝ) ≤ (m : ℝ) := by exact_mod_cast hm0
  have hm1r : (m : ℝ) + 1 ≤ (W : ℝ) := by exact_mod_cast Int.add_one_le_iff.mpr hm1
  have hθ : ((X : ℝ) + 0.5) / (W : ℝ) * (2 * Real.pi) - c0 / (W : ℝ) * (2 * Real.pi)
      = ((m : ℝ) + 0.5) / (W : ℝ) * (2 * Real.pi) + (k : ℝ) * (2 * Real.pi) := by
    have hX : (X : ℝ) = c0 + (m : ℝ) + (k : ℝ) * (W : ℝ) := by linarith
    rw [hX]
    field_simp
    ring
  rw [longitude_flat, q_x_eq, hθ, seam_periodic]
  have ha := cos_q_y_pos c0 0 W H X y hy0 hy1
  have hfrac0 : 0 < ((m : ℝ) + 0.5) / (W : ℝ) := div_pos (by linarith) hW
  have hfrac1 : ((m : ℝ) + 0.5) / (W : ℝ) < 1 := by
    rw [div_lt_one hW]
    linarith
  rcases lt_or_gt_of_ne hmid with hlt | hgt
  · apply seam_lt_pi ha
    · exact mul_pos hfrac0 (by linarith)
    · have h2 : 2 * (m : ℝ) + 1 < (W : ℝ) := by exact_mod_cast hlt
      have h3 : ((m : ℝ) + 0.5) / (W : ℝ) < 1 / 2 := by
        rw [div_lt_iff₀ hW]
        linarith
      nlinarith
  · apply seam_gt_pi ha
    · have h2 : (W : ℝ) < 2 * (m : ℝ) + 1 := by exact_mod_cast hgt
      have h3 : 1 / 2 < ((m : ℝ) + 0.5) / (W : ℝ) := by
        rw [lt_div_iff₀ hW]
        linarith
      nlinarith
    · nlinarith

/-- With `center[1] = 0`, on a row of the image the latitude of line 139 is
`q[1]`. -/
theorem latitude_flat (c0 : ℝ) (W H X y : ℤ) (hy0 : 0 ≤ y) (hy1 : y < H) :
    (normRad ⟨Real.pi, c0, 0, W, H⟩ X y).y = ((y : ℝ) + 0.5) / (H : ℝ) * Real.pi - Real.pi / 2 := by
  have hb := q_y_bounds c0 0 W H X y hy0 hy1
  obtain ⟨-, hyy, -⟩ := rotNorm_flat c0 W H X y
  simp only [normRad, asin, hyy]
  rw [Real.arcsin_sin hb.1.le hb.2.le, q_y_eq]

/-! ## The coordinate mapper: the claims -/

/-- C6: with `PI = pi`, `width = 360`, `height = 180`, `center[1] = 0`, at the
pixel `(0, 90)`: the longitude for `center[0] = 90` minus the longitude for
`center[0] = 0` is `-pi/2` plus one whole turn, hence congruent to `+pi/2` or
`-pi/2` modulo `2 pi`, and the latitude is the same in both cases. -/
theorem C6_quarter_turn_offset :
    (normRad ⟨Real.pi, 90, 0, 360, 180⟩ 0 90).x - (normRad ⟨Real.pi, 0, 0, 360, 180⟩ 0 90).x
        = -(Real.pi / 2) + 2 * Real.pi ∧
    ((∃ k : ℤ, (normRad ⟨Real.pi, 90, 0, 360, 180⟩ 0 90).x
          - (normRad ⟨Real.pi, 0, 0, 360, 180⟩ 0 90).x = Real.pi / 2 + k * (2 * Real.pi)) ∨
      (∃ k : ℤ, (normRad ⟨Real.pi, 90, 0, 360, 180⟩ 0 90).x
          - (normRad ⟨Real.pi, 0, 0, 360, 180⟩ 0 90).x = -(Real.pi / 2) + k * (2 * Real.pi))) ∧
    (normRad ⟨Real.pi, 90, 0, 360, 180⟩ 0 90).y = (normRad ⟨Real.pi, 0, 0, 360, 180⟩ 0 90).y := by
  have h0 := longitude_flat_exact 0 360 180 0 90 0 0 (by decide) (by decide) (by decide)
    (by decide) (by decide) (by push_cast; ring)
  have h90 := longitude_flat_exact 90 360 180 0 90 270 (-1) (by decide) (by decide) (by decide)
    (by decide) (by decide) (by push_cast; ring)
  have hd : (normRad ⟨Real.pi, 90, 0, 360, 180⟩ 0 90).x
      - (normRad ⟨Real.pi, 0, 0, 360, 180⟩ 0 90).x = -(Real.pi / 2) + 2 * Real.pi := by
    rw [h0, h90]
    push_cast
    ring
  refine ⟨hd, Or.inr ⟨1, ?_⟩, ?_⟩
  · rw [hd]
    push_cast
    ring
  · rw [latitude_flat 90 360 180 0 90 (by decide) (by decide),
      latitude_flat 0 360 180 0 90 (by decide) (by decide)]

/-- C7: with `PI = pi` and `center[1] = 0`, for every `width > 0`, `height > 0`,
row `0 <= y < height`, integer column `x` and real `d`: modulo `2 pi` the
longitude for `center[0] = d` is the longitude for `center[0] = 0` minus
`d / width * 2 pi`, the longitude for `center[0] = -d` is that longitude plus
`d / width * 2 pi`, and the two differ by `2 * d / width * 2 pi`. -/
theorem C7_pole_offset_sign_symmetry (W H x y : ℤ) (d : ℝ) (_hW : 0 < W) (_hH : 0 < H)
    (hy0 : 0 ≤ y) (hy1 : y < H) :
    (∃ k : ℤ, (normRad ⟨Real.pi, d, 0, W, H⟩ x y).x - (normRad ⟨Real.pi, 0, 0, W, H⟩ x y).x
        = -(d / (W : ℝ) * (2 * Real.pi)) + k * (2 * Real.pi)) ∧
    (∃ k : ℤ, (normRad ⟨Real.pi, -d, 0, W, H⟩ x y).x - (normRad ⟨Real.pi, 0, 0, W, H⟩ x y).x
        = d / (W : ℝ) * (2 * Real.pi) + k * (2 * Real.pi)) ∧
    (∃ k : ℤ, (normRad ⟨Real.pi, -d, 0, W, H⟩ x y).x - (normRad ⟨Real.pi, d, 0, W, H⟩ x y).x
        = 2 * d / (W : ℝ) * (2 * Real.pi) + k * (2 * Real.pi)) := by
  obtain ⟨k0, h0⟩ := longitude_flat_mod 0 W H x y hy0 hy1
  obtain ⟨k1, h1⟩ := longitude_flat_mod d W H x y hy0 hy1
  obtain ⟨k2, h2⟩ := longitude_flat_mod (-d) W H x y hy0 hy1
  refine ⟨⟨k1 - k0, ?_⟩, ⟨k2 - k0, ?_⟩, ⟨k2 - k1, ?_⟩⟩
  · rw [h0, h1]
    push_cast
    ring
  · rw [h0, h2]
    push_cast
    ring
  · rw [h1, h2]
    push_cast
    ring

/-- C7 at `width = 8`, `height = 4`, pixel `(3, 1)`, `d = 2.5`. -/
theorem C7_pole_offset_sign_symmetry_witness :
    (∃ k : ℤ, (normRad ⟨Real.pi, 2.5, 0, 8, 4⟩ 3 1).x - (normRad ⟨Real.pi, 0, 0, 8, 4⟩ 3 1).x
        = -(2.5 / ((8 : ℤ) : ℝ) * (2 * Real.pi)) + k * (2 * Real.pi)) ∧
    (∃ k : ℤ, (normRad ⟨Real.pi, -2.5, 0, 8, 4⟩ 3 1).x - (normRad ⟨Real.pi, 0, 0, 8, 4⟩ 3 1).x
        = 2.5 / ((8 : ℤ) : ℝ) * (2 * Real.pi) + k * (2 * Real.pi)) ∧
    (∃ k : ℤ, (normRad ⟨Real.pi, -2.5, 0, 8, 4⟩ 3 1).x - (normRad ⟨Real.pi, 2.5, 0, 8, 4⟩ 3 1).x
        = 2 * 2.5 / ((8 : ℤ) : ℝ) * (2 * Real.pi) + k * (2 * Real.pi)) :=
  C7_pole_offset_sign_symmetry 8 4 3 1 2.5 (by decide) (by decide) (by decide) (by decide)

/-- C9: for every `width > 0`, `height > 0`, every integer pixel and every pair of
pole offsets (and any value of `PI`), the vectors `(Xrot, Yrot, Zrot)`,
`(Xnorm, Ynorm, Znorm)` and `rotNorm` have squared length `1`, and the argument
of `asin`, `rotNorm[1]`, lies in `[-1, 1]`. -/
theorem C9_unit_vectors (c : Params) (X y : ℤ) (_hW : 0 < c.width) (_hH : 0 < c.height) :
    Xrot c X y ^ 2 + Yrot c X y ^ 2 + Zrot c X y ^ 2 = 1 ∧
    Xnorm c X y ^ 2 + Ynorm c X y ^ 2 + Znorm c X y ^ 2 = 1 ∧
    (rotNorm c X y).x ^ 2 + (rotNorm c X y).y ^ 2 + (rotNorm c X y).z ^ 2 = 1 ∧
    -1 ≤ (rotNorm c X y).y ∧ (rotNorm c X y).y ≤ 1 := by
  have hrot : Xrot c X y ^ 2 + Yrot c X y ^ 2 + Zrot c X y ^ 2 = 1 := by
    simp only [Xrot, Yrot, Zrot]
    have h1 := Real.sin_sq_add_cos_sq (q c X y).y
    have h2 := Real.sin_sq_add_cos_sq
      ((q c X y).x + radians (-(c.center0 / (c.width : ℝ) * 360) + 90))
    nlinarith
  have hnorm : Xnorm c X y ^ 2 + Ynorm c X y ^ 2 + Znorm c X y ^ 2 = 1 := by
    have h3 := Real.sin_sq_add_cos_sq (radians (c.center1 / (c.height : ℝ) * 180))
    have e : Xnorm c X y ^ 2 + Ynorm c X y ^ 2 + Znorm c X y ^ 2
        = Xrot c X y ^ 2 + (Yrot c X y ^ 2 + Zrot c X y ^ 2)
            * (Real.sin (radians (c.center1 / (c.height : ℝ) * 180)) ^ 2
              + Real.cos (radians (c.center1 / (c.height : ℝ) * 180)) ^ 2) := by
      simp only [Xnorm, Ynorm, Znorm]
      ring
    rw [e, h3]
    linarith
  have hfin : (rotNorm c X y).x ^ 2 + (rotNorm c X y).y ^ 2 + (rotNorm c X y).z ^ 2 = 1 := by
    simp only [rotNorm]
    linarith
  have hsq : (rotNorm c X y).y ^ 2 ≤ 1 := by
    nlinarith [sq_nonneg (rotNorm c X y).x, sq_nonneg (rotNorm c X y).z]
  have habs := abs_le_one_iff_mul_self_le_one.mpr (by nlinarith : (rotNorm c X y).y * (rotNorm c X y).y ≤ 1)
  exact ⟨hrot, hnorm, hfin, (abs_le.mp habs).1, (abs_le.mp habs).2⟩

/-- C9 at `width = 360`, `height = 180`, `center = (90, 45)`, pixel `(7, 11)`. -/
theorem C9_unit_vectors_witness :
    Xrot ⟨Real.pi, 90, 45, 360, 180⟩ 7 11 ^ 2 + Yrot ⟨Real.pi, 90, 45, 360, 180⟩ 7 11 ^ 2
      + Zrot ⟨Real.pi, 90, 45, 360, 180⟩ 7 11 ^ 2 = 1 ∧
    Xnorm ⟨Real.pi, 90, 45, 360, 180⟩ 7 11 ^ 2 + Ynorm ⟨Real.pi, 90, 45, 360, 180⟩ 7 11 ^ 2
      + Znorm ⟨Real.pi, 90, 45, 360, 180⟩ 7 11 ^ 2 = 1 ∧
    (rotNorm ⟨Real.pi, 90, 45, 360, 180⟩ 7 11).x ^ 2
      + (rotNorm ⟨Real.pi, 90, 45, 360, 180⟩ 7 11).y ^ 2
      + (rotNorm ⟨Real.pi, 90, 45, 360, 180⟩ 7 11).z ^ 2 = 1 ∧
    -1 ≤ (rotNorm ⟨Real.pi, 90, 45, 360, 180⟩ 7 11).y ∧
    (rotNorm ⟨Real.pi, 90, 45, 360, 180⟩ 7 11).y ≤ 1 :=
  C9_unit_vectors ⟨Real.pi, 90, 45, 360, 180⟩ 7 11 (by decide) (by decide)

/-! ## The span engine: auxiliary facts -/

theorem columns_zero (x : ℤ) : columns x 0 = [] := rfl

theorem columns_succ (x : ℤ) (n : ℕ) : columns x (n + 1) = x :: columns (x + 1) n := by
  unfold columns
  rw [List.range_succ_eq_map, List.map_cons, List.map_map]
  congr 1
  · simp
  · apply List.map_congr_left
    intro k _
    simp only [Function.comp_apply]
    push_cast
    ring

/-- Making channels writable does not touch the pixel values. -/
theorem makeWritable_fold_data {V : Type} (channels : List Channel) (out : Row V) :
    (channels.foldl Row.makeWritable out).data = out.data := by
  induction channels generalizing out with
  | nil => rfl
  | cons z rest ih =>
    rw [List.foldl_cons, ih]
    rfl

/-- The column loop when none of its polls reports an abort: every column is
mapped, in order. -/
theorem mapLoop_clear (c : Params) (aborted : ℕ → Bool) (y : ℤ) (n : ℕ) (X : ℤ) (poll : ℕ)
    (acc : List SamplePosition) (h : ∀ j, j < n → aborted (poll + j) = false) :
    mapLoop c aborted y n X poll acc
      = (acc ++ (columns X n).map (fun X' => mapColumn c X' y), true) := by
  induction n generalizing X poll acc with
  | zero => simp [mapLoop, columns_zero]
  | succ n ih =>
    have h0 : aborted poll = false := by simpa using h 0 (Nat.succ_pos n)
    have hrest : ∀ j, j < n → aborted (poll + 1 + j) = false := by
      intro j hj
      have := h (j + 1) (Nat.succ_lt_succ hj)
      rwa [show poll + (j + 1) = poll + 1 + j by omega] at this
    rw [mapLoop, h0, if_neg (by simp), ih (X + 1) (poll + 1) _ hrest, columns_succ]
    simp

/-- The column loop when its poll number `k` (counted from `0`) is the first to
report an abort: the first `k` columns are mapped and the loop is left. -/
theorem mapLoop_abort (c : Params) (aborted : ℕ → Bool) (y : ℤ) (n k : ℕ) (X : ℤ) (poll : ℕ)
    (acc : List SamplePosition) (hk : k < n)
    (h : ∀ j, j < k → aborted (poll + j) = false) (hset : aborted (poll + k) = true) :
    mapLoop c aborted y n X poll acc
      = (acc ++ (columns X k).map (fun X' => mapColumn c X' y), false) := by
  induction n generalizing k X poll acc with
  | zero => omega
  | succ n ih =>
    cases k with
    | zero =>
      have h0 : aborted poll = true := by simpa using hset
      rw [mapLoop, h0, if_pos rfl]
      simp [columns_zero]
    | succ k =>
      have h0 : aborted poll = false := by simpa using h 0 (Nat.succ_pos k)
      have hrest : ∀ j, j < k → aborted (poll + 1 + j) = false := by
        intro j hj
        have := h (j + 1) (Nat.succ_lt_succ hj)
        rwa [show poll + (j + 1) = poll + 1 + j by omega] at this
      have hset2 : aborted (poll + 1 + k) = true := by
        rwa [show poll + (k + 1) = poll + 1 + k by omega] at hset
      rw [mapLoop, h0, if_neg (by simp),
        ih k (X + 1) (poll + 1) _ (Nat.lt_of_succ_lt_succ hk) hrest hset2, columns_succ]
      simp

/-- The value a scatter leaves at channel `z`, column `X'`. -/
theorem scatter_apply {V : Type} (channels : List Channel) (pixel : Channel → V) (X : ℤ)
    (data : Channel → ℤ → V) (z : Channel) (X' : ℤ) :
    scatter channels pixel X data z X'
      = if z ∈ channels ∧ X' = X then pixel z else data z X' := by
  unfold scatter
  induction channels generalizing data with
  | nil => simp
  | cons w rest ih =>
    rw [List.foldl_cons, ih]
    by_cases hX : X' = X
    · by_cases hr : z ∈ rest
      · simp [hr, hX]
      · by_cases hw : z = w
        · subst hw
          simp [hr, hX, store]
        · simp [hr, hX, hw, store]
    · simp [hX, store]

/-- The sampling loop calls the sampler once for every position, in order. -/
theorem sampleLoop_calls {V : Type} (sample : SamplePosition → Channel → V)
    (channels : List Channel) (ps : List SamplePosition) (data : Channel → ℤ → V)
    (calls : List SamplePosition) :
    (sampleLoop sample channels ps (data, calls)).2 = calls ++ ps := by
  induction ps generalizing data calls with
  | nil => simp [sampleLoop]
  | cons sp rest ih =>
    rw [sampleLoop, ih]
    simp

/-- The pixel values the sampling loop leaves when the positions are those of
the columns `x, ..., x + n - 1`. -/
theorem sampleLoop_data {V : Type} (c : Params) (sample : SamplePosition → Channel → V)
    (channels : List Channel) (y : ℤ) (n : ℕ) (x : ℤ) (data : Channel → ℤ → V)
    (calls : List SamplePosition) (z : Channel) (X : ℤ) :
    (sampleLoop sample channels ((columns x n).map (fun X' => mapColumn c X' y))
        (data, calls)).1 z X
      = if z ∈ channels ∧ x ≤ X ∧ X < x + (n : ℤ) then sample (mapColumn c X y) z
        else data z X := by
  induction n generalizing x data calls with
  | zero =>
    have : ¬ (z ∈ channels ∧ x ≤ X ∧ X < x + ((0 : ℕ) : ℤ)) := by
      rintro ⟨-, h1, h2⟩
      simp at h2
      omega
    rw [if_neg this]
    simp [columns_zero, sampleLoop]
  | succ n ih =>
    rw [columns_succ, List.map_cons, sampleLoop, ih, scatter_apply]
    have hx : (mapColumn c x y).x = x := rfl
    rw [hx]
    push_cast
    by_cases hz : z ∈ channels
    · by_cases h3 : X = x
      · subst h3
        have h1 : ¬ (z ∈ channels ∧ X + 1 ≤ X ∧ X < X + 1 + (n : ℤ)) := by
          rintro ⟨-, h, -⟩
          omega
        have h2 : z ∈ channels ∧ X ≤ X ∧ X < X + ((n : ℤ) + 1) := ⟨hz, le_rfl, by omega⟩
        rw [if_neg h1, if_pos ⟨hz, rfl⟩, if_pos h2]
      · have h4 : ¬ (z ∈ channels ∧ X = x) := fun h => h3 h.2
        rw [if_neg h4]
        by_cases h1 : x + 1 ≤ X ∧ X < x + 1 + (n : ℤ)
        · have h2 : z ∈ channels ∧ x ≤ X ∧ X < x + ((n : ℤ) + 1) := ⟨hz, by omega, by omega⟩
          rw [if_pos ⟨hz, h1⟩, if_pos h2]
        · have h2 : ¬ (z ∈ channels ∧ x ≤ X ∧ X < x + ((n : ℤ) + 1)) := by
            rintro ⟨-, h5, h6⟩
            apply h1
            omega
          rw [if_neg (fun h => h1 h.2), if_neg h2]
    · rw [if_neg (fun h => hz h.1), if_neg (fun h => hz h.1), if_neg (fun h => hz h.1)]

/-! ## The span engine: the claims -/

/-- C4: when no call of `aborted()` returns `true`, for every span `x <= r` the
call leaves in every column `x <= X < r` and every requested channel the value
the sampler returns for the position mapped for `(X, y)` (`newPos`, `du`, `dv`,
origin `X`); the sampler calls are exactly the positions of the columns
`x, ..., r - 1`, one per column in increasing order; every column outside
`[x, r)`, and every channel that was not requested, keeps its value. -/
theorem C4_span_result {V : Type} (c : Params) (aborted : ℕ → Bool)
    (sample : SamplePosition → Channel → V) (y x r : ℤ) (channels : List Channel)
    (out : Row V) (hxr : x ≤ r) (hclear : ∀ k, aborted k = false) :
    (∀ X z, x ≤ X → X < r → z ∈ channels →
      (doEngine c aborted sample y x r channels out).out.data z X
        = sample ⟨newPos c X y, du, dv, X⟩ z) ∧
    (doEngine c aborted sample y x r channels out).sampled
      = (columns x (r - x).toNat).map (fun X => ⟨newPos c X y, du, dv, X⟩) ∧
    (∀ X z, (X < x ∨ r ≤ X) →
      (doEngine c aborted sample y x r channels out).out.data z X = out.data z X) ∧
    (∀ X z, z ∉ channels →
      (doEngine c aborted sample y x r channels out).out.data z X = out.data z X) := by
  have hloop := mapLoop_clear c aborted y (r - x).toNat x 1 [] (fun j _ => hclear (1 + j))
  have hn : x + (((r - x).toNat : ℕ) : ℤ) = r := by omega
  have hdata : ∀ X z, (doEngine c aborted sample y x r channels out).out.data z X
      = if z ∈ channels ∧ x ≤ X ∧ X < r then sample (mapColumn c X y) z else out.data z X := by
    intro X z
    simp only [doEngine, hclear 0, hloop, List.nil_append]
    rw [if_neg (by simp)]
    simp only [sampleLoop_data, makeWritable_fold_data, hn]
  refine ⟨?_, ?_, ?_, ?_⟩
  · intro X z h1 h2 hz
    rw [hdata, if_pos ⟨hz, h1, h2⟩]
    rfl
  · simp only [doEngine, hclear 0, hloop, List.nil_append]
    rw [if_neg (by simp)]
    simp only [sampleLoop_calls, List.nil_append]
    rfl
  · intro X z hX
    rw [hdata, if_neg]
    rintro ⟨-, h1, h2⟩
    omega
  · intro X z hz
    rw [hdata, if_neg (fun h => hz h.1)]

/-- C4 on the span `[0, 2)` of row `0`, channels `0` and `1`, with a sampler
that returns the origin column. -/
theorem C4_span_result_witness :
    (∀ X z, (0 : ℤ) ≤ X → X < 2 → z ∈ [0, 1] →
      (doEngine ⟨Real.pi, 0, 0, 4, 2⟩ (fun _ => false) (fun sp _ => sp.x) 0 0 2 [0, 1]
          ⟨fun _ => false, fun _ _ => -1⟩).out.data z X
        = (fun (sp : SamplePosition) (_ : Channel) => sp.x)
            ⟨newPos ⟨Real.pi, 0, 0, 4, 2⟩ X 0, du, dv, X⟩ z) ∧
    (doEngine ⟨Real.pi, 0, 0, 4, 2⟩ (fun _ => false) (fun sp _ => sp.x) 0 0 2 [0, 1]
        ⟨fun _ => false, fun _ _ => -1⟩).sampled
      = (columns 0 ((2 : ℤ) - 0).toNat).map
          (fun X => ⟨newPos ⟨Real.pi, 0, 0, 4, 2⟩ X 0, du, dv, X⟩) ∧
    (∀ X z, (X < (0 : ℤ) ∨ (2 : ℤ) ≤ X) →
      (doEngine ⟨Real.pi, 0, 0, 4, 2⟩ (fun _ => false) (fun sp _ => sp.x) 0 0 2 [0, 1]
          ⟨fun _ => false, fun _ _ => -1⟩).out.data z X
        = (⟨fun _ => false, fun _ _ => -1⟩ : Row ℤ).data z X) ∧
    (∀ X z, z ∉ [0, 1] →
      (doEngine ⟨Real.pi, 0, 0, 4, 2⟩ (fun _ => false) (fun sp _ => sp.x) 0 0 2 [0, 1]
          ⟨fun _ => false, fun _ _ => -1⟩).out.data z X
        = (⟨fun _ => false, fun _ _ => -1⟩ : Row ℤ).data z X) :=
  C4_span_result ⟨Real.pi, 0, 0, 4, 2⟩ (fun _ => false) (fun sp _ => sp.x) 0 0 2 [0, 1]
    ⟨fun _ => false, fun _ _ => -1⟩ (by decide) (fun _ => rfl)

/-- C5: when the call of `aborted()` at entry returns `true`, for every span, row
and channel set the call returns the output row as it received it (pixel values
and writable marks), with no sampler call and no position mapped. -/
theorem C5_abort_at_entry {V : Type} (c : Params) (aborted : ℕ → Bool)
    (sample : SamplePosition → Channel → V) (y x r : ℤ) (channels : List Channel)
    (out : Row V) (h0 : aborted 0 = true) :
    (doEngine c aborted sample y x r channels out).out = out ∧
    (doEngine c aborted sample y x r channels out).sampled = [] ∧
    (doEngine c aborted sample y x r channels out).samplePositions = [] := by
  simp [doEngine, h0]

/-- C5 on the span `[0, 2)` of row `0` with the abort flag set throughout. -/
theorem C5_abort_at_entry_witness :
    (doEngine ⟨Real.pi, 0, 0, 4, 2⟩ (fun _ => true) (fun sp _ => sp.x) 0 0 2 [0, 1]
        ⟨fun _ => false, fun _ _ => -1⟩).out = ⟨fun _ => false, fun _ _ => -1⟩ ∧
    (doEngine ⟨Real.pi, 0, 0, 4, 2⟩ (fun _ => true) (fun sp _ => sp.x) 0 0 2 [0, 1]
        ⟨fun _ => false, fun _ _ => -1⟩).sampled = [] ∧
    (doEngine ⟨Real.pi, 0, 0, 4, 2⟩ (fun _ => true) (fun sp _ => sp.x) 0 0 2 [0, 1]
        ⟨fun _ => false, fun _ _ => -1⟩).samplePositions = [] :=
  C5_abort_at_entry ⟨Real.pi, 0, 0, 4, 2⟩ (fun _ => true) (fun sp _ => sp.x) 0 0 2 [0, 1]
    ⟨fun _ => false, fun _ _ => -1⟩ rfl

/-- C8: when `aborted()` returns `false` at entry and at the polls before the
columns `x, ..., X0 - 1`, and `true` at the poll before a column `x <= X0 < r`,
the call makes no sampler call and writes no pixel value: every column of every
channel keeps its value, the columns already mapped included; the vector
`samplePositions` holds the positions of the columns `x, ..., X0 - 1`. -/
theorem C8_abort_in_loop {V : Type} (c : Params) (aborted : ℕ → Bool)
    (sample : SamplePosition → Channel → V) (y x r X0 : ℤ) (channels : List Channel)
    (out : Row V) (hx : x ≤ X0) (hr : X0 < r) (h0 : aborted 0 = false)
    (hclear : ∀ j, j < (X0 - x).toNat → aborted (j + 1) = false)
    (hset : aborted ((X0 - x).toNat + 1) = true) :
    (doEngine c aborted sample y x r channels out).sampled = [] ∧
    (∀ X z, (doEngine c aborted sample y x r channels out).out.data z X = out.data z X) ∧
    (doEngine c aborted sample y x r channels out).samplePositions
      = (columns x (X0 - x).toNat).map (fun X => ⟨newPos c X y, du, dv, X⟩) := by
  have hloop := mapLoop_abort c aborted y (r - x).toNat (X0 - x).toNat x 1 [] (by omega)
    (fun j hj => by rw [Nat.add_comm]; exact hclear j hj) (by rw [Nat.add_comm]; exact hset)
  refine ⟨?_, ?_, ?_⟩
  · simp only [doEngine, h0, hloop]
    rw [if_neg (by simp)]
  · intro X z
    simp only [doEngine, h0, hloop]
    rw [if_neg (by simp)]
    simp only [makeWritable_fold_data]
  · simp only [doEngine, h0, hloop, List.nil_append]
    rw [if_neg (by simp)]
    rfl

/-- C8 on the span `[0, 3)` of row `0`, with the abort flag found set at the
poll before column `1` (poll number `2`). -/
theorem C8_abort_in_loop_witness :
    (doEngine ⟨Real.pi, 0, 0, 4, 2⟩ (fun k => decide (2 ≤ k)) (fun sp _ => sp.x) 0 0 3 [0, 1]
        ⟨fun _ => false, fun _ _ => -1⟩).sampled = [] ∧
    (∀ X z, (doEngine ⟨Real.pi, 0, 0, 4, 2⟩ (fun k => decide (2 ≤ k)) (fun sp _ => sp.x) 0 0 3
        [0, 1] ⟨fun _ => false, fun _ _ => -1⟩).out.data z X
      = (⟨fun _ => false, fun _ _ => -1⟩ : Row ℤ).data z X) ∧
    (doEngine ⟨Real.pi, 0, 0, 4, 2⟩ (fun k => decide (2 ≤ k)) (fun sp _ => sp.x) 0 0 3 [0, 1]
        ⟨fun _ => false, fun _ _ => -1⟩).samplePositions
      = (columns 0 ((1 : ℤ) - 0).toNat).map
          (fun X => ⟨newPos ⟨Real.pi, 0, 0, 4, 2⟩ X 0, du, dv, X⟩) :=
  C8_abort_in_loop ⟨Real.pi, 0, 0, 4, 2⟩ (fun k => decide (2 ≤ k)) (fun sp _ => sp.x) 0 0 3 1
    [0, 1] ⟨fun _ => false, fun _ _ => -1⟩ (by decide) (by decide) (by decide)
    (by decide) (by decide)

end SimpleSphericalTransform
